import Mathlib

/-!
# Verification of DIHE-clust (DIHE-clust.py)

A shallow embedding in Lean 4 of the self-contained parts of the
`DIHE-clust.py` script: the dihedral-angle geometry (`calculate_dihedral`),
the dihedral-chain expansion, the periodic preprocessing (clip + degree→radian
conversion), the dihedral-table write/load round trip, the intrinsic-dimension
derivation, and the relevant pieces of the command-line control flow.

Real-valued NumPy arithmetic is modelled over `ℝ` (exact real arithmetic);
the dihedral-table file format is modelled over `ℚ` so that rounding to four
decimal places is exact.  IEEE NaN, which the script can produce by a 0/0
division on degenerate geometry, is modelled by `Option ℝ` (`none` = NaN)
in a separate refinement of the per-frame computation.
-/

namespace DIHEclust

/-- A 3-component vector of reals, modelling one atomic position (a row of a
NumPy `(natoms, 3)` array) or a 3-vector derived from positions. -/
structure Vec3 where
  x : ℝ
  y : ℝ
  z : ℝ

/-- Componentwise subtraction of 3-vectors, modelling NumPy `B - A` on
3-element rows. -/
noncomputable def vsub (a b : Vec3) : Vec3 := ⟨a.x - b.x, a.y - b.y, a.z - b.z⟩

/-- `np.cross` on 3-vectors. -/
noncomputable def cross (a b : Vec3) : Vec3 :=
  ⟨a.y * b.z - a.z * b.y, a.z * b.x - a.x * b.z, a.x * b.y - a.y * b.x⟩

/-- `np.dot` on 3-vectors. -/
noncomputable def dot (a b : Vec3) : ℝ := a.x * b.x + a.y * b.y + a.z * b.z

/-- `np.linalg.norm` on a 3-vector: the Euclidean norm. -/
noncomputable def vnorm (a : Vec3) : ℝ := Real.sqrt (dot a a)

/-- `np.clip(x, lo, hi)`, which NumPy documents as
`np.minimum(hi, np.maximum(x, lo))`. -/
noncomputable def np_clip (x lo hi : ℝ) : ℝ := min (max x lo) hi

/-- `np.degrees`: radians to degrees. -/
noncomputable def np_degrees (x : ℝ) : ℝ := x * (180 / Real.pi)

/-- The body of the per-frame loop of `calculate_dihedral`
(`DIHE-clust.py` lines 14–33): bond vectors `v1 = B-A`, `v2 = C-B`,
`v3 = D-C`, normals `n1 = v1 × v2`, `n2 = v2 × v3`, then
`arccos(clip(n1·n2 / (|n1||n2|), -1, 1))` converted to degrees plus `180`. -/
noncomputable def dihedralFrame {natoms : ℕ} (step : Fin natoms → Vec3)
    (i j k l : Fin natoms) : ℝ :=
  let A := step i
  let B := step j
  let C := step k
  let D := step l
  let v1 := vsub B A
  let v2 := vsub C B
  let v3 := vsub D C
  let n1 := cross v1 v2
  let n2 := cross v2 v3
  let n1_mag := vnorm n1
  let n2_mag := vnorm n2
  let cos_phi := dot n1 n2 / (n1_mag * n2_mag)
  let phi := Real.arccos (np_clip cos_phi (-1) 1)
  let phi_deg := np_degrees phi
  phi_deg + 180

/-- `calculate_dihedral(trajectory, i, j, k, l)` (`DIHE-clust.py`
lines 11–35): one angle per frame, in frame order. -/
noncomputable def calculate_dihedral {natoms : ℕ} (trajectory : List (Fin natoms → Vec3))
    (i j k l : Fin natoms) : List ℝ :=
  trajectory.map (fun step => dihedralFrame step i j k l)

/-- The spec's statement of the per-frame dihedral algorithm, written as one
formula from the spec's words: bond vectors `v1=B−A`, `v2=C−B`, `v3=D−C` from
the positions at `i,j,k,l`, normals `n1=v1×v2` and `n2=v2×v3`, angle the arccos
of the clipped (to `[−1,1]`) normalized dot product of `n1` and `n2`, converted
to degrees and offset by `+180°`.  To be compared with `dihedralFrame`, which is
translated from the source. -/
noncomputable def dihedralSpecFormula {natoms : ℕ} (step : Fin natoms → Vec3)
    (i j k l : Fin natoms) : ℝ :=
  np_degrees (Real.arccos (np_clip
    (dot (cross (vsub (step j) (step i)) (vsub (step k) (step j)))
         (cross (vsub (step k) (step j)) (vsub (step l) (step k))) /
      (vnorm (cross (vsub (step j) (step i)) (vsub (step k) (step j))) *
       vnorm (cross (vsub (step k) (step j)) (vsub (step l) (step k)))))
    (-1) 1)) + 180

/-- IEEE refinement of the per-frame computation.  In the script, degenerate
(collinear) geometry makes a normal `n1` or `n2` the zero vector; then both
`np.dot(n1, n2)` and `n1_mag * n2_mag` are `0.0` and the division is IEEE
`0/0 = NaN`, which propagates through `np.clip`, `np.arccos`, `np.degrees` and
`+ 180.0` to the frame's output.  `none` models that NaN; a frame with nonzero
normal magnitudes yields `some` of the real-arithmetic value. -/
noncomputable def dihedralFrameIEEE {natoms : ℕ} (step : Fin natoms → Vec3)
    (i j k l : Fin natoms) : Option ℝ :=
  let v1 := vsub (step j) (step i)
  let v2 := vsub (step k) (step j)
  let v3 := vsub (step l) (step k)
  let n1_mag := vnorm (cross v1 v2)
  let n2_mag := vnorm (cross v2 v3)
  if n1_mag * n2_mag = 0 then none else some (dihedralFrame step i j k l)

/-- `calculate_dihedral` under the IEEE refinement: frames whose division is
`0/0` carry NaN (`none`), the loop continues over the remaining frames. -/
noncomputable def calculate_dihedral_IEEE {natoms : ℕ}
    (trajectory : List (Fin natoms → Vec3)) (i j k l : Fin natoms) :
    List (Option ℝ) :=
  trajectory.map (fun step => dihedralFrameIEEE step i j k l)

/-- The 1-D dihedral-list expansion (`DIHE-clust.py` lines 126–131): a flat
chain `old_dihelist` of length `n` becomes `n - 3` quadruples, the `i`-th being
`(old[i], old[i+1], old[i+2], old[i+3])`. -/
def expand_dihelist (old_dihelist : List ℤ) : List (ℤ × ℤ × ℤ × ℤ) :=
  (List.range (old_dihelist.length - 3)).map (fun i =>
    (old_dihelist.getD i 0, old_dihelist.getD (i + 1) 0,
     old_dihelist.getD (i + 2) 0, old_dihelist.getD (i + 3) 0))

/-- The periodic preprocessing (`DIHE-clust.py` lines 158–159):
`dihetraj = np.clip(dihetraj, 0.001, 359.999)` followed by
`dihetraj = dihetraj * np.pi / 180.0`, elementwise over the matrix. -/
noncomputable def preprocess (dihetraj : List (List ℝ)) : List (List ℝ) :=
  dihetraj.map (fun row => row.map (fun x =>
    np_clip x 0.001 359.999 * Real.pi / 180))

/-- Rounding a value to 4 decimal places, modelling the `'%.4f'` format of
`np.savetxt` (`DIHE-clust.py` line 139) at the rational level: round to the
nearest multiple of `1/10000`. -/
def round4 (x : ℚ) : ℚ := (round (x * 10000) : ℚ) / 10000

/-- `np.savetxt('dihetraj.dat', np.column_stack((indexes, dihetraj)), fmt)`
with `indexes = np.arange(nsteps)` and `fmt = ['%d'] + ['%.4f'] * ndihe`
(`DIHE-clust.py` lines 139–141): row `t` of the written table is the frame
index `t` followed by row `t` of the matrix rounded to 4 decimals. -/
def savetxt_dihetraj (dihetraj : List (List ℚ)) : List (List ℚ) :=
  (List.range dihetraj.length).map (fun t =>
    ((t : ℕ) : ℚ) :: (dihetraj.getD t ([] : List ℚ)).map round4)

/-- The `dihe`-format input branch (`DIHE-clust.py` lines 146–151): read the
first line, set `ndihe` to its token count minus one, then load every row
keeping columns `1 .. ndihe` (i.e. dropping the leading index column). -/
def load_dihe (table : List (List ℚ)) : List (List ℚ) :=
  let ndihe := (table.headD []).length - 1
  table.map (fun row => (row.drop 1).take ndihe)

/-- `np.min` of a (nonempty) 1-D array.  The empty case never occurs in the
script; it is given the junk value `0`. -/
noncomputable def np_min (a : List ℝ) : ℝ :=
  match a with
  | [] => 0
  | x :: xs => xs.foldl min x

/-- Python `int()` applied to a float value: truncation toward zero. -/
noncomputable def py_int (x : ℝ) : ℤ := if 0 ≤ x then ⌊x⌋ else ⌈x⌉

/-- `ID = int(max(np.min(ids_2nn), np.min(ids_gride)))`
(`DIHE-clust.py` line 211). -/
noncomputable def derived_ID (ids_2nn ids_gride : List ℝ) : ℤ :=
  py_int (max (np_min ids_2nn) (np_min ids_gride))

/-- A Python value as stored by argparse for the `--id` option: the default is
the int `0` (line 68 has `default=0`), while a value supplied on the command
line arrives as a string (no `type=` was given to `add_argument`). -/
inductive PyVal where
  | int (n : ℤ)
  | str (s : String)
deriving DecidableEq

/-- The value bound to `args.id`: the int default `0` when `--id` is absent,
otherwise the raw command-line string. -/
def parsed_id (supplied : Option String) : PyVal :=
  match supplied with
  | none => PyVal.int 0
  | some s => PyVal.str s

/-- Python `==` on argparse values: ints compare by value, strings compare by
value, and an int never equals a string. -/
def py_eq (a b : PyVal) : Bool :=
  match a, b with
  | PyVal.int m, PyVal.int n => m == n
  | PyVal.str s, PyVal.str t => s == t
  | _, _ => false

/-- The branch condition `if (ID == 0):` (`DIHE-clust.py` line 170) deciding
whether the intrinsic dimension is auto-estimated. -/
def auto_estimates_ID (idval : PyVal) : Bool := py_eq idval (PyVal.int 0)

/-- An observable effect of the script's start-up, for the no-argument guard. -/
inductive Effect where
  | printHelp
  | readInput
deriving DecidableEq

/-- The script's top-level guard (`DIHE-clust.py` lines 74–76): when
`sys.argv` holds only the program name, `parser.print_help()` runs and
`sys.exit()` — which exits with status `0` — fires before any argument
parsing or file reading; otherwise the script goes on to read its input.
Returns the effects performed up to that point and `some exitcode` when the
guard exits. -/
def scriptStart (argv : List String) : List Effect × Option ℕ :=
  if argv.length = 1 then ([Effect.printHelp], some 0)
  else ([Effect.readInput], none)

/-! ## Shared lemmas -/

/-- Unfolding `dihedralFrame` to a single formula (the let-bindings of the
source inlined). -/
theorem dihedralFrame_formula {natoms : ℕ} (step : Fin natoms → Vec3)
    (i j k l : Fin natoms) :
    dihedralFrame step i j k l =
      np_degrees (Real.arccos (np_clip
        (dot (cross (vsub (step j) (step i)) (vsub (step k) (step j)))
             (cross (vsub (step k) (step j)) (vsub (step l) (step k))) /
          (vnorm (cross (vsub (step j) (step i)) (vsub (step k) (step j))) *
           vnorm (cross (vsub (step k) (step j)) (vsub (step l) (step k)))))
        (-1) 1)) + 180 := rfl

/-- A clipped value lies in the closed interval `[lo, hi]` when `lo ≤ hi`. -/
theorem np_clip_mem {x lo hi : ℝ} (h : lo ≤ hi) :
    lo ≤ np_clip x lo hi ∧ np_clip x lo hi ≤ hi :=
  ⟨le_min (le_max_right x lo) h, min_le_right _ _⟩

/-! ## C3: chain expansion -/

/-- C3: for a one-dimensional dihedral chain `[a0, ..., a_{n-1}]` with
`n ≥ 4`, the expansion has exactly `n − 3` entries, entry `i` being the
quadruple `(a_i, a_{i+1}, a_{i+2}, a_{i+3})`, in chain order. -/
theorem C3_chain_expansion (old_dihelist : List ℤ)
    (h : 4 ≤ old_dihelist.length) :
    (expand_dihelist old_dihelist).length = old_dihelist.length - 3 ∧
    ∀ i, i < old_dihelist.length - 3 →
      (expand_dihelist old_dihelist).getD i (0, 0, 0, 0) =
        (old_dihelist.getD i 0, old_dihelist.getD (i + 1) 0,
         old_dihelist.getD (i + 2) 0, old_dihelist.getD (i + 3) 0) := by
  constructor
  · simp [expand_dihelist]
  · intro i hi
    rw [List.getD_eq_getElem _ _ (by simpa [expand_dihelist] using hi)]
    simp [expand_dihelist]

/-- Witness for C3 on the concrete chain `[6, 7, 8, 9, 10]`. -/
theorem C3_chain_expansion_witness :
    4 ≤ ([6, 7, 8, 9, 10] : List ℤ).length ∧
    ((expand_dihelist [6, 7, 8, 9, 10]).length =
        ([6, 7, 8, 9, 10] : List ℤ).length - 3 ∧
      ∀ i, i < ([6, 7, 8, 9, 10] : List ℤ).length - 3 →
        (expand_dihelist [6, 7, 8, 9, 10]).getD i (0, 0, 0, 0) =
          (([6, 7, 8, 9, 10] : List ℤ).getD i 0,
           ([6, 7, 8, 9, 10] : List ℤ).getD (i + 1) 0,
           ([6, 7, 8, 9, 10] : List ℤ).getD (i + 2) 0,
           ([6, 7, 8, 9, 10] : List ℤ).getD (i + 3) 0)) :=
  ⟨by decide, C3_chain_expansion [6, 7, 8, 9, 10] (by decide)⟩

/-! ## C6: the `--id 0` branch -/

/-- C6 (code evaluated at the failing input): supplying `--id 0` on the
command line stores the string `"0"`, and `"0" == 0` is `False` in Python, so
the auto-estimation branch is NOT taken; only the omitted-option default
(the int `0`) takes it. -/
theorem C6_id_zero_skips_auto :
    auto_estimates_ID (parsed_id (some "0")) = false ∧
    auto_estimates_ID (parsed_id none) = true := by
  constructor <;> rfl

/-! ## C9: no-argument guard -/

/-- C9: invoked with no arguments (`sys.argv` = the program name alone), the
script prints the usage text and exits with status 0, without reading any
input file. -/
theorem C9_no_arguments_guard (prog : String) :
    scriptStart [prog] = ([Effect.printHelp], some 0) ∧
    Effect.readInput ∉ (scriptStart [prog]).1 := by
  constructor <;> simp [scriptStart]

/-! ## C5: intrinsic-dimension derivation -/

/-- C5: when the intrinsic dimension is auto-estimated, the working dimension
is the floor of `max(min(ids_2nn), min(ids_gride))` (Python `int()` truncates
toward zero, which is the floor on the nonnegative estimates). -/
theorem C5_auto_ID (ids_2nn ids_gride : List ℝ)
    (h : 0 ≤ max (np_min ids_2nn) (np_min ids_gride)) :
    derived_ID ids_2nn ids_gride =
      ⌊max (np_min ids_2nn) (np_min ids_gride)⌋ := by
  rw [derived_ID, py_int, if_pos h]

/-- Witness for C5 at the claim's instance: scaling curves with minima `3.0`
and `4.2` give a derived dimension of `4`. -/
theorem C5_auto_ID_witness :
    0 ≤ max (np_min [(3 : ℝ)]) (np_min [(21 / 5 : ℝ)]) ∧
    derived_ID [(3 : ℝ)] [(21 / 5 : ℝ)] = 4 := by
  have hm2 : np_min [(3 : ℝ)] = 3 := rfl
  have hmg : np_min [(21 / 5 : ℝ)] = 21 / 5 := rfl
  have hmax : max (np_min [(3 : ℝ)]) (np_min [(21 / 5 : ℝ)]) = 21 / 5 := by
    rw [hm2, hmg, max_eq_right (by norm_num)]
  have h0 : (0 : ℝ) ≤ max (np_min [(3 : ℝ)]) (np_min [(21 / 5 : ℝ)]) := by
    rw [hmax]; norm_num
  refine ⟨h0, ?_⟩
  rw [C5_auto_ID [(3 : ℝ)] [(21 / 5 : ℝ)] h0, hmax]
  rw [Int.floor_eq_iff]
  constructor <;> norm_num

/-! ## C1: the geometry algorithm -/

/-- C1: for every frame and valid indices `(i, j, k, l)` (validity is encoded
by the `Fin natoms` index type), `calculate_dihedral` returns exactly one
value per frame, in frame order, and the value for frame `t` is exactly the
spec's formula: bond vectors, normals, arccos of the clipped normalized dot
product, degrees, `+180°`. -/
theorem C1_dihedral_algorithm {natoms : ℕ}
    (trajectory : List (Fin natoms → Vec3)) (i j k l : Fin natoms) :
    (calculate_dihedral trajectory i j k l).length = trajectory.length ∧
    ∀ t : Fin trajectory.length,
      (calculate_dihedral trajectory i j k l).getD t 0 =
        dihedralSpecFormula (trajectory.get t) i j k l := by
  constructor
  · simp [calculate_dihedral]
  · intro t
    rw [List.getD_eq_getElem _ _ (by simpa [calculate_dihedral] using t.isLt)]
    simp only [calculate_dihedral, List.getElem_map]
    rfl

/-! ## C10: reversal invariance -/

/-- Reversing the quadruple negates and swaps the bond vectors, which leaves
the dot product of the normals and the product of their magnitudes unchanged,
hence the per-frame angle. -/
theorem dihedralFrame_rev {natoms : ℕ} (step : Fin natoms → Vec3)
    (i j k l : Fin natoms) :
    dihedralFrame step l k j i = dihedralFrame step i j k l := by
  rw [dihedralFrame_formula, dihedralFrame_formula]
  have hd : dot (cross (vsub (step k) (step l)) (vsub (step j) (step k)))
                (cross (vsub (step j) (step k)) (vsub (step i) (step j))) =
            dot (cross (vsub (step j) (step i)) (vsub (step k) (step j)))
                (cross (vsub (step k) (step j)) (vsub (step l) (step k))) := by
    simp only [dot, cross, vsub]
    ring
  have h1 : dot (cross (vsub (step k) (step l)) (vsub (step j) (step k)))
                (cross (vsub (step k) (step l)) (vsub (step j) (step k))) =
            dot (cross (vsub (step k) (step j)) (vsub (step l) (step k)))
                (cross (vsub (step k) (step j)) (vsub (step l) (step k))) := by
    simp only [dot, cross, vsub]
    ring
  have h2 : dot (cross (vsub (step j) (step k)) (vsub (step i) (step j)))
                (cross (vsub (step j) (step k)) (vsub (step i) (step j))) =
            dot (cross (vsub (step j) (step i)) (vsub (step k) (step j)))
                (cross (vsub (step j) (step i)) (vsub (step k) (step j))) := by
    simp only [dot, cross, vsub]
    ring
  simp only [vnorm]
  rw [hd, h1, h2, mul_comm (Real.sqrt _) (Real.sqrt _)]

/-- C10: the dihedral computed by `calculate_dihedral` is invariant under
reversing the quadruple of atom indices, frame by frame. -/
theorem C10_reversal_invariance {natoms : ℕ}
    (trajectory : List (Fin natoms → Vec3)) (i j k l : Fin natoms) :
    calculate_dihedral trajectory i j k l =
      calculate_dihedral trajectory l k j i := by
  simp only [calculate_dihedral]
  simp only [fun step => dihedralFrame_rev step i j k l]

/-! ## C2: the range of the returned angle -/

/-- Non-degenerate geometry for a frame and a quadruple of indices: neither
normal has zero length, so the normalizing division is not `0/0`. -/
noncomputable def nondegenerate {natoms : ℕ} (step : Fin natoms → Vec3)
    (i j k l : Fin natoms) : Prop :=
  vnorm (cross (vsub (step j) (step i)) (vsub (step k) (step j))) *
    vnorm (cross (vsub (step k) (step j)) (vsub (step l) (step k))) ≠ 0

/-- A planar, trans arrangement of four atoms (raw dihedral 180°): the normals
are exactly antiparallel, so `calculate_dihedral` lands on the endpoint
`180° + 180° = 360°`. -/
noncomputable def frameTrans : Fin 4 → Vec3 :=
  fun t => [⟨0, 0, 0⟩, ⟨1, 0, 0⟩, ⟨1, 1, 0⟩, ⟨2, 1, 0⟩].get t

/-- The first normal of `frameTrans` under the quadruple `(0,1,2,3)`. -/
theorem frameTrans_n1 :
    cross (vsub (frameTrans 1) (frameTrans 0))
      (vsub (frameTrans 2) (frameTrans 1)) = ⟨0, 0, 1⟩ := by
  show cross (vsub ⟨1, 0, 0⟩ ⟨0, 0, 0⟩) (vsub ⟨1, 1, 0⟩ ⟨1, 0, 0⟩) = ⟨0, 0, 1⟩
  simp only [vsub, cross, Vec3.mk.injEq]
  norm_num

/-- The second normal of `frameTrans` under the quadruple `(0,1,2,3)`. -/
theorem frameTrans_n2 :
    cross (vsub (frameTrans 2) (frameTrans 1))
      (vsub (frameTrans 3) (frameTrans 2)) = ⟨0, 0, -1⟩ := by
  show cross (vsub ⟨1, 1, 0⟩ ⟨1, 0, 0⟩) (vsub ⟨2, 1, 0⟩ ⟨1, 1, 0⟩) = ⟨0, 0, -1⟩
  simp only [vsub, cross, Vec3.mk.injEq]
  norm_num

/-- Euclidean norm of the unit vector `(0, 0, 1)`. -/
theorem vnorm_unit_z : vnorm ⟨0, 0, 1⟩ = 1 := by
  rw [vnorm, dot]
  norm_num

/-- Euclidean norm of `(0, 0, -1)`. -/
theorem vnorm_neg_unit_z : vnorm ⟨0, 0, -1⟩ = 1 := by
  rw [vnorm, dot]
  norm_num

/-- `frameTrans` is non-degenerate for the quadruple `(0,1,2,3)`. -/
theorem frameTrans_nondegenerate : nondegenerate frameTrans 0 1 2 3 := by
  rw [nondegenerate, frameTrans_n1, frameTrans_n2, vnorm_unit_z,
    vnorm_neg_unit_z]
  norm_num

/-- On `frameTrans` the computed dihedral is exactly `360`. -/
theorem dihedralFrame_frameTrans : dihedralFrame frameTrans 0 1 2 3 = 360 := by
  rw [dihedralFrame_formula, frameTrans_n1, frameTrans_n2, vnorm_unit_z,
    vnorm_neg_unit_z]
  have hdot : dot (⟨0, 0, 1⟩ : Vec3) ⟨0, 0, -1⟩ = -1 := by
    rw [dot]; norm_num
  rw [hdot]
  have hclip : np_clip (-1 / (1 * 1)) (-1) 1 = -1 := by
    rw [np_clip]
    norm_num
  rw [hclip, Real.arccos_neg_one, np_degrees]
  have hπ : Real.pi ≠ 0 := Real.pi_ne_zero
  field_simp
  norm_num

/-- Counterexample to C2: a trajectory whose single frame is the planar trans
arrangement has non-degenerate geometry, yet the returned value is exactly
`360`, not strictly less than `360`. -/
theorem C2_counterexample :
    nondegenerate frameTrans 0 1 2 3 ∧
    (calculate_dihedral [frameTrans] 0 1 2 3).getD 0 0 = 360 ∧
    ¬ (calculate_dihedral [frameTrans] 0 1 2 3).getD 0 0 < 360 := by
  have hval : (calculate_dihedral [frameTrans] 0 1 2 3).getD 0 0 =
      dihedralFrame frameTrans 0 1 2 3 := rfl
  refine ⟨frameTrans_nondegenerate, ?_, ?_⟩
  · rw [hval, dihedralFrame_frameTrans]
  · rw [hval, dihedralFrame_frameTrans]
    exact lt_irrefl _

/-- Every per-frame value lies in `[180, 360]`: the arccos lies in `[0, π]`,
degrees conversion maps it into `[0, 180]`, and the script adds `180`. -/
theorem dihedralFrame_bounds {natoms : ℕ} (step : Fin natoms → Vec3)
    (i j k l : Fin natoms) :
    180 ≤ dihedralFrame step i j k l ∧ dihedralFrame step i j k l ≤ 360 := by
  rw [dihedralFrame_formula]
  set c := np_clip
    (dot (cross (vsub (step j) (step i)) (vsub (step k) (step j)))
         (cross (vsub (step k) (step j)) (vsub (step l) (step k))) /
      (vnorm (cross (vsub (step j) (step i)) (vsub (step k) (step j))) *
       vnorm (cross (vsub (step k) (step j)) (vsub (step l) (step k)))))
    (-1) 1 with hc
  have h0 : 0 ≤ Real.arccos c := Real.arccos_nonneg c
  have hπ : Real.arccos c ≤ Real.pi := Real.arccos_le_pi c
  have hcoef : (0 : ℝ) < 180 / Real.pi := by
    apply div_pos (by norm_num) Real.pi_pos
  constructor
  · have : 0 ≤ np_degrees (Real.arccos c) := by
      rw [np_degrees]
      exact mul_nonneg h0 (le_of_lt hcoef)
    linarith
  · have : np_degrees (Real.arccos c) ≤ 180 := by
      rw [np_degrees]
      calc Real.arccos c * (180 / Real.pi) ≤ Real.pi * (180 / Real.pi) :=
            mul_le_mul_of_nonneg_right hπ (le_of_lt hcoef)
        _ = 180 := by field_simp
    linarith

/-- C2 (amended): for every trajectory with non-degenerate geometry and valid
indices, every value returned by `calculate_dihedral` lies in the closed
interval `[0°, 360°]`: at least `0` and at most `360` (the endpoint `360` is
attained, see the counterexample). -/
theorem C2_range (natoms : ℕ) (trajectory : List (Fin natoms → Vec3))
    (i j k l : Fin natoms)
    (hnd : ∀ step ∈ trajectory, nondegenerate step i j k l) :
    ∀ t : Fin trajectory.length,
      0 ≤ (calculate_dihedral trajectory i j k l).getD t 0 ∧
      (calculate_dihedral trajectory i j k l).getD t 0 ≤ 360 := by
  intro t
  rw [List.getD_eq_getElem _ _ (by simpa [calculate_dihedral] using t.isLt)]
  simp only [calculate_dihedral, List.getElem_map]
  have h := dihedralFrame_bounds (trajectory[(t : ℕ)]) i j k l
  exact ⟨by linarith [h.1], h.2⟩

/-- Witness for C2 (amended) on the one-frame trajectory `[frameTrans]`. -/
theorem C2_range_witness :
    (∀ step ∈ [frameTrans], nondegenerate step (0 : Fin 4) 1 2 3) ∧
    (0 ≤ (calculate_dihedral [frameTrans] 0 1 2 3).getD (0 : ℕ) 0 ∧
      (calculate_dihedral [frameTrans] 0 1 2 3).getD (0 : ℕ) 0 ≤ 360) := by
  have hnd : ∀ step ∈ [frameTrans], nondegenerate step (0 : Fin 4) 1 2 3 := by
    intro step hstep
    rw [List.mem_singleton] at hstep
    rw [hstep]
    exact frameTrans_nondegenerate
  exact ⟨hnd, C2_range 4 [frameTrans] 0 1 2 3 hnd ⟨0, by simp⟩⟩

/-! ## C8: NaN on degenerate geometry -/

/-- Four collinear atoms on the x axis: both bond-vector cross products are
the zero vector, so the division in the script is IEEE `0/0 = NaN`. -/
noncomputable def frameCollinear : Fin 4 → Vec3 :=
  fun t => [⟨0, 0, 0⟩, ⟨1, 0, 0⟩, ⟨2, 0, 0⟩, ⟨3, 0, 0⟩].get t

/-- `frameCollinear` is degenerate for the quadruple `(0,1,2,3)`. -/
theorem frameCollinear_degenerate : ¬ nondegenerate frameCollinear 0 1 2 3 := by
  rw [nondegenerate, not_not]
  have hn1 : cross (vsub (frameCollinear 1) (frameCollinear 0))
      (vsub (frameCollinear 2) (frameCollinear 1)) = ⟨0, 0, 0⟩ := by
    show cross (vsub ⟨1, 0, 0⟩ ⟨0, 0, 0⟩) (vsub ⟨2, 0, 0⟩ ⟨1, 0, 0⟩) = ⟨0, 0, 0⟩
    simp only [vsub, cross, Vec3.mk.injEq]
    norm_num
  have hz : vnorm ⟨0, 0, 0⟩ = 0 := by
    rw [vnorm, dot]
    norm_num
  rw [hn1, hz, zero_mul]

/-- On a degenerate frame the IEEE refinement produces NaN (`none`). -/
theorem dihedralFrameIEEE_of_degenerate {natoms : ℕ} (step : Fin natoms → Vec3)
    (i j k l : Fin natoms) (h : ¬ nondegenerate step i j k l) :
    dihedralFrameIEEE step i j k l = none := by
  rw [nondegenerate, not_not] at h
  simp only [dihedralFrameIEEE]
  rw [if_pos h]

/-- On a non-degenerate frame the IEEE refinement agrees with the
real-arithmetic value. -/
theorem dihedralFrameIEEE_of_nondegenerate {natoms : ℕ}
    (step : Fin natoms → Vec3) (i j k l : Fin natoms)
    (h : nondegenerate step i j k l) :
    dihedralFrameIEEE step i j k l = some (dihedralFrame step i j k l) := by
  rw [nondegenerate] at h
  simp only [dihedralFrameIEEE]
  rw [if_neg h]

/-- C8: under the IEEE refinement, a frame whose four selected atoms are
degenerate does not raise an error: the `0/0` division yields NaN (`none`) in
that frame's output slot, the loop still emits one value per frame, and every
non-degenerate frame gets its ordinary value. -/
theorem C8_nan_propagation (natoms : ℕ)
    (trajectory : List (Fin natoms → Vec3)) (i j k l : Fin natoms)
    (t : ℕ) (ht : t < trajectory.length)
    (hdeg : ¬ nondegenerate (trajectory[t]) i j k l) :
    (calculate_dihedral_IEEE trajectory i j k l).length = trajectory.length ∧
    (calculate_dihedral_IEEE trajectory i j k l).getD t none = none ∧
    ∀ s : Fin trajectory.length, nondegenerate (trajectory.get s) i j k l →
      (calculate_dihedral_IEEE trajectory i j k l).getD s none =
        some (dihedralFrame (trajectory.get s) i j k l) := by
  refine ⟨by simp [calculate_dihedral_IEEE], ?_, ?_⟩
  · rw [List.getD_eq_getElem _ _ (by simpa [calculate_dihedral_IEEE] using ht)]
    simp only [calculate_dihedral_IEEE, List.getElem_map]
    exact dihedralFrameIEEE_of_degenerate _ i j k l hdeg
  · intro s hs
    rw [List.getD_eq_getElem _ _
      (by simpa [calculate_dihedral_IEEE] using s.isLt)]
    simp only [calculate_dihedral_IEEE, List.getElem_map]
    exact dihedralFrameIEEE_of_nondegenerate _ i j k l hs

/-- Witness for C8: frame 0 is collinear (NaN slot), frame 1 is the trans
frame and still gets its value `360`. -/
theorem C8_nan_propagation_witness :
    0 < ([frameCollinear, frameTrans] : List (Fin 4 → Vec3)).length ∧
    ¬ nondegenerate frameCollinear 0 1 2 3 ∧
    ((calculate_dihedral_IEEE [frameCollinear, frameTrans] 0 1 2 3).length =
        ([frameCollinear, frameTrans] : List (Fin 4 → Vec3)).length ∧
      (calculate_dihedral_IEEE [frameCollinear, frameTrans] 0 1 2 3).getD
          (0 : ℕ) none = none ∧
      ∀ s : Fin ([frameCollinear, frameTrans] :
          List (Fin 4 → Vec3)).length,
        nondegenerate (([frameCollinear, frameTrans] :
            List (Fin 4 → Vec3)).get s) 0 1 2 3 →
        (calculate_dihedral_IEEE [frameCollinear, frameTrans] 0 1 2 3).getD
            s none =
          some (dihedralFrame (([frameCollinear, frameTrans] :
              List (Fin 4 → Vec3)).get s) 0 1 2 3)) :=
  ⟨by norm_num, frameCollinear_degenerate,
    C8_nan_propagation 4 [frameCollinear, frameTrans] 0 1 2 3 0 (by norm_num)
      frameCollinear_degenerate⟩

/-! ## C4: periodic preprocessing -/

/-- Counterexample to C4: the input value `360°` is clipped to exactly the
boundary `359.999°`, so the resulting value in degree terms is NOT strictly
inside the open interval `(0.001°, 359.999°)`. -/
theorem C4_counterexample :
    ((preprocess [[360]]).getD 0 []).getD 0 0 * (180 / Real.pi) = 359.999 ∧
    ¬ ((preprocess [[360]]).getD 0 []).getD 0 0 * (180 / Real.pi) <
        359.999 := by
  have hval : ((preprocess [[360]]).getD 0 []).getD 0 0 =
      np_clip 360 0.001 359.999 * Real.pi / 180 := rfl
  have hclip : np_clip (360 : ℝ) 0.001 359.999 = 359.999 := by
    rw [np_clip, max_eq_left (by norm_num), min_eq_right (by norm_num)]
  have heq : ((preprocess [[360]]).getD 0 []).getD 0 0 * (180 / Real.pi) =
      359.999 := by
    rw [hval, hclip]
    have hπ : Real.pi ≠ 0 := Real.pi_ne_zero
    field_simp
  exact ⟨heq, by rw [heq]; exact lt_irrefl _⟩

/-- C4 (amended): the preprocessing maps each value to radians after clipping,
every resulting value lies (in degree terms) in the CLOSED interval
`[0.001°, 359.999°]`, and the transform is total (it is a Lean function, so it
is defined on every numeric matrix). -/
theorem C4_clip_range (dihetraj : List (List ℝ)) :
    ∀ row ∈ preprocess dihetraj, ∀ r ∈ row,
      0.001 ≤ r * (180 / Real.pi) ∧ r * (180 / Real.pi) ≤ 359.999 := by
  intro row hrow r hr
  rw [preprocess, List.mem_map] at hrow
  obtain ⟨row₀, _, hrow₀⟩ := hrow
  rw [← hrow₀, List.mem_map] at hr
  obtain ⟨x, _, hx⟩ := hr
  have hπ : Real.pi ≠ 0 := Real.pi_ne_zero
  have hdeg : r * (180 / Real.pi) = np_clip x 0.001 359.999 := by
    rw [← hx]
    field_simp
  rw [hdeg]
  exact np_clip_mem (by norm_num)

/-- Witness for C4 (amended) on the one-entry matrix `[[5]]`. -/
theorem C4_clip_range_witness :
    [np_clip 5 0.001 359.999 * Real.pi / 180] ∈ preprocess [[(5 : ℝ)]] ∧
    np_clip 5 0.001 359.999 * Real.pi / 180 ∈
      [np_clip 5 0.001 359.999 * Real.pi / 180] ∧
    (0.001 ≤ np_clip 5 0.001 359.999 * Real.pi / 180 * (180 / Real.pi) ∧
      np_clip 5 0.001 359.999 * Real.pi / 180 * (180 / Real.pi) ≤ 359.999) := by
  have h1 : [np_clip 5 0.001 359.999 * Real.pi / 180] ∈
      preprocess [[(5 : ℝ)]] := by
    rw [preprocess]
    simp
  have h2 : np_clip 5 0.001 359.999 * Real.pi / 180 ∈
      [np_clip 5 0.001 359.999 * Real.pi / 180] := by simp
  exact ⟨h1, h2, C4_clip_range [[(5 : ℝ)]] _ h1 _ h2⟩

/-! ## C7: table round trip -/

/-- `headD` is `getD` at index `0`. -/
theorem headD_eq_getD_zero {α : Type} (l : List α) (d : α) :
    l.headD d = l.getD 0 d := by
  cases l <;> rfl

/-- Rounding to 4 decimals moves a value by at most half of `1/10000`. -/
theorem abs_round4_sub (x : ℚ) : |round4 x - x| ≤ 1 / 20000 := by
  have h := abs_sub_round (x * 10000)
  have heq : round4 x - x = -((x * 10000 - (round (x * 10000) : ℚ)) / 10000) := by
    rw [round4]; ring
  rw [heq, abs_neg, abs_div, abs_of_pos (show (0 : ℚ) < 10000 by norm_num),
    div_le_iff (by norm_num)]
  calc |x * 10000 - (round (x * 10000) : ℚ)| ≤ 1 / 2 := h
    _ ≤ 1 / 20000 * 10000 := by norm_num

/-- C7: writing a dihedral time-series matrix to the table format (leading
0-based frame-index column, angles to 4 decimal places) and reloading it
through the `dihe` input path (column count inferred from the first line,
first column dropped) reproduces the matrix within the 4-decimal rounding
tolerance, with the same number of rows and columns. -/
theorem C7_roundtrip (m : List (List ℚ)) (ncols : ℕ)
    (hne : 0 < m.length) (hrect : ∀ row ∈ m, row.length = ncols) :
    (load_dihe (savetxt_dihetraj m)).length = m.length ∧
    ∀ t, t < m.length →
      ((load_dihe (savetxt_dihetraj m)).getD t []).length = ncols ∧
      ∀ c, c < ncols →
        |((load_dihe (savetxt_dihetraj m)).getD t []).getD c 0 -
          (m.getD t []).getD c 0| ≤ 1 / 20000 := by
  have hrow0 : m.getD 0 [] = m[0] := List.getD_eq_getElem _ _ hne
  have hrow0len : (m[0] : List ℚ).length = ncols :=
    hrect _ (List.getElem_mem hne)
  have hndihe : ((savetxt_dihetraj m).headD []).length - 1 = ncols := by
    rw [headD_eq_getD_zero,
      List.getD_eq_getElem _ _ (by simpa [savetxt_dihetraj] using hne)]
    simp only [savetxt_dihetraj, List.getElem_map, List.getElem_range]
    rw [List.length_cons, List.length_map, hrow0, hrow0len]
    omega
  constructor
  · simp [load_dihe, savetxt_dihetraj]
  · intro t ht
    have hrowt : m.getD t [] = m[t] := List.getD_eq_getElem _ _ ht
    have hrowtlen : (m[t] : List ℚ).length = ncols :=
      hrect _ (List.getElem_mem ht)
    have hload : (load_dihe (savetxt_dihetraj m)).getD t [] =
        ((m[t] : List ℚ).map round4).take ncols := by
      simp only [load_dihe]
      rw [hndihe,
        List.getD_eq_getElem _ _ (by simpa [savetxt_dihetraj] using ht)]
      simp only [savetxt_dihetraj, List.getElem_map, List.getElem_range,
        List.drop_succ_cons, List.drop_zero, List.take_succ_cons]
      rw [hrowt]
    have htake : ((m[t] : List ℚ).map round4).take ncols =
        (m[t] : List ℚ).map round4 := by
      apply List.take_of_length_le
      rw [List.length_map, hrowtlen]
    constructor
    · rw [hload, htake, List.length_map, hrowtlen]
    · intro c hc
      have hc2 : c < ((m[t] : List ℚ).map round4).length := by
        rw [List.length_map, hrowtlen]
        exact hc
      have hc3 : c < (m[t] : List ℚ).length := by
        rw [hrowtlen]
        exact hc
      rw [hload, htake, List.getD_eq_getElem _ _ hc2, List.getElem_map,
        hrowt, List.getD_eq_getElem _ _ hc3]
      exact abs_round4_sub _

/-- Witness for C7 on the one-entry matrix `[[1/3]]`: the stored value is
`0.3333` and the reload differs from `1/3` by `1/30000 ≤ 1/20000`. -/
theorem C7_roundtrip_witness :
    0 < ([[(1 : ℚ) / 3]]).length ∧
    (∀ row ∈ [[(1 : ℚ) / 3]], row.length = 1) ∧
    ((load_dihe (savetxt_dihetraj [[(1 : ℚ) / 3]])).length =
        ([[(1 : ℚ) / 3]]).length ∧
      ∀ t, t < ([[(1 : ℚ) / 3]]).length →
        ((load_dihe (savetxt_dihetraj [[(1 : ℚ) / 3]])).getD t []).length = 1 ∧
        ∀ c, c < 1 →
          |((load_dihe (savetxt_dihetraj [[(1 : ℚ) / 3]])).getD t []).getD c 0 -
            (([[(1 : ℚ) / 3]]).getD t []).getD c 0| ≤ 1 / 20000) :=
  ⟨by decide, by decide,
    C7_roundtrip [[(1 : ℚ) / 3]] 1 (by decide) (by decide)⟩

end DIHEclust
